import Mathlib

/-!
# Verification of a Burrows-Wheeler Transform implementation

Shallow embedding of the two source files `bw_transform.py` and
`invert_bwt.py`.  Python strings are modelled as `List Char` (Python compares
strings lexicographically by code point, which coincides with the
`LinearOrder (List Char)` instance obtained from `List.Lex` over the
code-point order on `Char`).  Python's stable `list.sort()` is modelled by
`List.insertionSort (· ≤ ·)`, Mathlib's stable sort; since sorting here is
always by a linear order, any stable sort computes the same list, and for
character lists equal elements are identical, so the model is extensionally
faithful.  Fallible Python code (raising `ValueError` / `IndexError`)
is modelled with `Option` / `Except`.
-/

/-- The global `ALPHABET` set of both source files: the space character,
the digits, and the upper and lower case ASCII letters. -/
def ALPHABET (c : Char) : Bool :=
  c.toNat == 32 || (decide (48 ≤ c.toNat) && decide (c.toNat ≤ 57))
    || (decide (65 ≤ c.toNat) && decide (c.toNat ≤ 90))
    || (decide (97 ≤ c.toNat) && decide (c.toNat ≤ 122))

/-- `sorted_rotations_to_bwt` of `bw_transform.py`: concatenate the last
character (`rotation[-1]`) of each rotation.  All rotations fed to it are
nonempty, where `filterMap List.getLast?` agrees with taking each last
character (Python raises `IndexError` on an empty rotation; that case is
never exercised below). -/
def sorted_rotations_to_bwt (sorted_rotations : List (List Char)) : List Char :=
  sorted_rotations.filterMap List.getLast?

/-- `sort_rotations` of `bw_transform.py`: Python's stable `list.sort()` on
strings, i.e. a stable sort by lexicographic code-point order. -/
def sort_rotations (rotations : List (List Char)) : List (List Char) :=
  rotations.insertionSort (· ≤ ·)

/-- `make_rotations` of `bw_transform.py`: `text2 = text + text`, and
rotation `i` is the slice `text2[i:i+n]`. -/
def make_rotations (text : List Char) : List (List Char) :=
  (List.range text.length).map (fun i => ((text ++ text).drop i).take text.length)

/-- `bw_transform` of `bw_transform.py`. -/
def bw_transform (text : List Char) (end_char : Char := '$') : List Char :=
  sorted_rotations_to_bwt (sort_rotations (make_rotations (text ++ [end_char])))

/-- `sort_string` of `invert_bwt.py`: sort the characters of a string
(stable sort by code point). -/
def sort_string (astr : List Char) : List Char :=
  astr.insertionSort (· ≤ ·)

/-- The dictionary of FIFO queues built by the first loop of `build_map`:
`d[c]` is the queue of the indices `i` with `last[i] = c`, left to right. -/
def occIndices (last : List Char) (c : Char) : List Nat :=
  (List.range last.length).filter (fun i => decide (last[i]? = some c))

/-- The second loop of `build_map`: walk over `first`, and for each
character pop the front of its queue (`d[c].popleft()`) and append it to
the map.  Popping an empty queue cannot happen when the queues are built
from a permutation of `first` (Python would raise `IndexError`); the
`headD 0` default is never exercised below. -/
def buildLoop (d : Char → List Nat) : List Char → List Nat
  | [] => []
  | c :: cs =>
    (d c).headD 0 :: buildLoop (fun c' => if c' = c then (d c).tail else d c') cs

/-- `build_map` of `invert_bwt.py`: sort the BWT to get the first column,
build the per-character queues of indices into `last`, then pop one index
per first-column character. -/
def build_map (last : List Char) : List Nat :=
  buildLoop (occIndices last) (sort_string last)

/-- The `for i in range(len(bwt))` loop of `text_using_map`: from position
`x`, repeatedly step to `x = lf_map[x]` and emit `bwt[x]`.  An
out-of-range index (Python `IndexError`) yields `none`. -/
def lfWalk (bwt : List Char) (lf_map : List Nat) : Nat → Nat → Option (List Char)
  | _, 0 => some []
  | x, m + 1 =>
    match lf_map[x]? with
    | none => none
    | some x2 =>
      match bwt[x2]? with
      | none => none
      | some c => (lfWalk bwt lf_map x2 m).map (fun rest => c :: rest)

/-- `text_using_map` of `invert_bwt.py`: `x = bwt.index(end_char)` (which
raises `ValueError`, modelled as `none`, when `end_char` does not occur in
`bwt`), then walk the map `len(bwt)` times. -/
def text_using_map (bwt : List Char) (lf_map : List Nat) (end_char : Char := '$') :
    Option (List Char) :=
  if end_char ∈ bwt then lfWalk bwt lf_map (List.indexOf end_char bwt) bwt.length
  else none

/-- `invert_bwt_via_map` of `invert_bwt.py`.  Note the source calls
`text_using_map(bwt, lf_map)` without forwarding its own `end_char`
argument, so the walk always starts from the default sentinel `'$'`;
the embedding reproduces this faithfully.  `text[:-1]` is `dropLast`. -/
def invert_bwt_via_map (bwt : List Char) (end_char : Char := '$') : Option (List Char) :=
  (text_using_map bwt (build_map bwt)).map List.dropLast

/-- `validate_bwt` of `invert_bwt.py` (with `line_no = None`, the default):
count the characters outside `ALPHABET`; zero of them or more than one is
an error (returned by Python as a message string, modelled as `.error`),
and a single one is replaced by `end_char`. -/
def validate_bwt (string : List Char) (end_char : Char := '$') : Except String (List Char) :=
  match (List.range string.length).filter
      (fun i => !(ALPHABET (string.getD i ' '))) with
  | [] => Except.error "String has no symbols."
  | [i] => Except.ok (string.take i ++ end_char :: string.drop (i + 1))
  | _ :: _ :: _ => Except.error "String has more than one symbols."

/-! ## Helper notions for the analysis -/

/-- Left rotation by `i` positions: `t[i:] + t[:i]`. -/
def rotl (t : List Char) (i : Nat) : List Char :=
  t.drop i ++ t.take i

/-- Cyclic successor on `[0, n)`. -/
def nxt (n i : Nat) : Nat := (i + 1) % n

/-- Cyclic predecessor on `[0, n)`. -/
def prv (n i : Nat) : Nat := (i + n - 1) % n

theorem nxt_eq {n i : Nat} (h : i < n) : nxt n i = if i + 1 = n then 0 else i + 1 := by
  unfold nxt
  by_cases h1 : i + 1 = n
  · simp [h1]
  · rw [if_neg h1, Nat.mod_eq_of_lt (by omega)]

theorem prv_eq {n i : Nat} (h : i < n) : prv n i = if i = 0 then n - 1 else i - 1 := by
  unfold prv
  by_cases h0 : i = 0
  · rw [if_pos h0, h0, Nat.zero_add, Nat.mod_eq_of_lt (by omega)]
  · rw [if_neg h0, show i + n - 1 = (i - 1) + n by omega, Nat.add_mod_right,
      Nat.mod_eq_of_lt (by omega)]

theorem nxt_lt {n : Nat} (hn : 0 < n) (i : Nat) : nxt n i < n :=
  Nat.mod_lt _ hn

theorem prv_lt {n : Nat} (hn : 0 < n) (i : Nat) : prv n i < n :=
  Nat.mod_lt _ hn

theorem prv_nxt {n i : Nat} (h : i < n) : prv n (nxt n i) = i := by
  rw [nxt_eq h]
  by_cases h1 : i + 1 = n
  · rw [if_pos h1, prv_eq (show 0 < n by omega), if_pos rfl]; omega
  · rw [if_neg h1, prv_eq (show i + 1 < n by omega), if_neg (by omega)]; omega

theorem nxt_prv {n i : Nat} (h : i < n) : nxt n (prv n i) = i := by
  rw [prv_eq h]
  by_cases h0 : i = 0
  · rw [if_pos h0, nxt_eq (show n - 1 < n by omega), if_pos (by omega)]; omega
  · rw [if_neg h0, nxt_eq (show i - 1 < n by omega), if_neg (by omega)]; omega

theorem nxt_inj {n i j : Nat} (hi : i < n) (hj : j < n) (h : nxt n i = nxt n j) : i = j := by
  have := prv_nxt hi
  have := prv_nxt hj
  rw [h] at *
  omega

/-! ## Generic list lemmas -/

theorem filterMap_eq_map_of_some {α β : Type} (f : α → Option β) (g : α → β) :
    ∀ l : List α, (∀ a ∈ l, f a = some (g a)) → l.filterMap f = l.map g
  | [], _ => rfl
  | a :: l, h => by
    rw [List.filterMap_cons, h a (by simp), List.map_cons,
      filterMap_eq_map_of_some f g l (fun b hb => h b (by simp [hb]))]

theorem getD_tail {α : Type} (l : List α) (d : α) (m : Nat) :
    l.tail.getD m d = l.getD (m + 1) d := by
  cases l <;> simp [List.getD]

theorem headD_eq_getD_zero {α : Type} (l : List α) (d : α) :
    l.headD d = l.getD 0 d := by
  cases l <;> rfl

/-- In a list in which `c` occurs at most once, two positions holding `c`
coincide. -/
theorem getD_unique_of_count_le_one {l : List Char} {c d : Char} {p q : Nat}
    (hp : p < l.length) (hq : q < l.length) (h1 : l.count c ≤ 1)
    (hcp : l.getD p d = c) (hcq : l.getD q d = c) : p = q := by
  rcases Nat.lt_trichotomy p q with h | h | h
  · exfalso
    rw [List.getD_eq_getElem l d hp] at hcp
    rw [List.getD_eq_getElem l d hq] at hcq
    have hsplit : l = l.take q ++ l.drop q := (List.take_append_drop q l).symm
    have hdrop : l.drop q = c :: l.drop (q + 1) := by
      rw [← List.getElem_cons_drop l q hq, hcq]
    have htk : c ∈ l.take q := by
      have hlen : p < (l.take q).length := by simp; omega
      have : (l.take q)[p] = l[p] := List.getElem_take l
      rw [← hcp, ← this]
      exact List.getElem_mem hlen
    have h2 : 1 ≤ (l.take q).count c := List.count_pos_iff.mpr htk
    have h3 : l.count c = (l.take q).count c + (l.drop q).count c := by
      conv_lhs => rw [hsplit]
      exact List.count_append c _ _
    rw [hdrop, List.count_cons_self] at h3
    omega
  · exact h
  · exfalso
    rw [List.getD_eq_getElem l d hp] at hcp
    rw [List.getD_eq_getElem l d hq] at hcq
    have hsplit : l = l.take p ++ l.drop p := (List.take_append_drop p l).symm
    have hdrop : l.drop p = c :: l.drop (p + 1) := by
      rw [← List.getElem_cons_drop l p hp, hcp]
    have htk : c ∈ l.take p := by
      have hlen : q < (l.take p).length := by simp; omega
      have : (l.take p)[q] = l[q] := List.getElem_take l
      rw [← hcq, ← this]
      exact List.getElem_mem hlen
    have h2 : 1 ≤ (l.take p).count c := List.count_pos_iff.mpr htk
    have h3 : l.count c = (l.take p).count c + (l.drop p).count c := by
      conv_lhs => rw [hsplit]
      exact List.count_append c _ _
    rw [hdrop, List.count_cons_self] at h3
    omega

/-! ## Counting characters versus filtered index ranges -/

theorem length_filter_range_eq_count (F : List Char) (c : Char) :
    ∀ m, m ≤ F.length →
      ((List.range m).filter (fun k => decide (F[k]? = some c))).length
        = (F.take m).count c := by
  intro m
  induction m with
  | zero => simp
  | succ m ih =>
    intro hm
    have hm' : m < F.length := by omega
    rw [List.range_succ, List.filter_append, List.length_append, ih (by omega),
      List.take_succ, List.count_append, List.getElem?_eq_getElem hm']
    congr 1
    by_cases hc : F[m] = c
    · simp [List.getElem?_eq_getElem hm', hc]
    · simp [List.getElem?_eq_getElem hm', hc, List.count_singleton, Ne.symm hc]

/-- The element of `(range m).filter P` at the position counting the
`P`-indices below `k` is `k` itself, whenever `P k` holds. -/
theorem filter_range_getElem? (P : Nat → Bool) {m k : Nat} (hk : k < m) (hP : P k = true) :
    ((List.range m).filter P)[((List.range k).filter P).length]? = some k := by
  have hm : m = (k + 1) + (m - (k + 1)) := by omega
  rw [hm, List.range_add, List.filter_append, List.range_succ, List.filter_append]
  have hk1 : List.filter P [k] = [k] := by simp [hP]
  rw [hk1, List.append_assoc, List.getElem?_append_right (le_refl _)]
  simp

/-! ## The `build_map` loop -/

theorem buildLoop_length (d : Char → List Nat) (F : List Char) :
    (buildLoop d F).length = F.length := by
  induction F generalizing d with
  | nil => rfl
  | cons c cs ih => simp [buildLoop, ih]

theorem buildLoop_getD (d₀ : Char) :
    ∀ (F : List Char) (d : Char → List Nat) (k : Nat), k < F.length →
      (buildLoop d F).getD k 0
        = (d (F.getD k d₀)).getD ((F.take k).count (F.getD k d₀)) 0
  | c :: cs, d, 0, _ => by
    simp [buildLoop, List.headD_eq_head?_getD, List.head?_eq_getElem?]
  | c :: cs, d, k + 1, hk => by
    have hk' : k < cs.length := by
      simp only [List.length_cons] at hk
      omega
    rw [show buildLoop d (c :: cs)
        = (d c).headD 0 :: buildLoop (fun c' => if c' = c then (d c).tail else d c') cs
        from rfl]
    rw [List.getD_cons_succ, buildLoop_getD d₀ cs _ k hk', List.getD_cons_succ,
      List.take_succ_cons, List.count_cons]
    by_cases hx : cs.getD k d₀ = c
    · rw [if_pos hx, getD_tail]
      simp only [List.getD_eq_getElem?_getD] at hx
      simp [hx]
    · rw [if_neg hx]
      have hx' : ¬(c = cs[k]?.getD d₀) := by
        simp only [List.getD_eq_getElem?_getD] at hx
        exact fun h => hx h.symm
      simp [hx']

/-! ## Properties of `occIndices` -/

theorem occIndices_length (B : List Char) (c : Char) :
    (occIndices B c).length = B.count c := by
  have h := length_filter_range_eq_count B c B.length (le_refl _)
  rwa [List.take_length] at h

theorem mem_occIndices {B : List Char} {c : Char} {x : Nat} :
    x ∈ occIndices B c ↔ x < B.length ∧ B[x]? = some c := by
  simp [occIndices, List.mem_filter, List.mem_range]

theorem occIndices_nodup (B : List Char) (c : Char) : (occIndices B c).Nodup :=
  (List.nodup_range _).filter _

theorem occIndices_pairwise (B : List Char) (c : Char) :
    (occIndices B c).Pairwise (· < ·) :=
  (List.pairwise_lt_range _).filter _

/-! ## Properties of `sort_string` -/

theorem sort_string_length (B : List Char) : (sort_string B).length = B.length :=
  List.length_insertionSort _ _

theorem sort_string_perm (B : List Char) : List.Perm (sort_string B) B :=
  List.perm_insertionSort _ _

theorem sort_string_sorted (B : List Char) : (sort_string B).Sorted (· ≤ ·) :=
  List.sorted_insertionSort _ _

theorem count_sort_string (B : List Char) (c : Char) :
    (sort_string B).count c = B.count c :=
  (sort_string_perm B).count_eq c

/-! ## Counting within prefixes -/

theorem count_take_lt {F : List Char} {k : Nat} {d : Char} (hk : k < F.length) :
    (F.take k).count (F.getD k d) < F.count (F.getD k d) := by
  have hc : F.getD k d = F[k] := List.getD_eq_getElem F d hk
  have hdrop : F.drop k = F.getD k d :: F.drop (k + 1) := by
    rw [hc, List.getElem_cons_drop]
  have hsplit := List.count_append (F.getD k d) (F.take k) (F.drop k)
  rw [List.take_append_drop] at hsplit
  rw [hdrop, List.count_cons_self] at hsplit
  omega

theorem count_take_mono (F : List Char) (c : Char) {k k' : Nat} (h : k ≤ k') :
    (F.take k).count c ≤ (F.take k').count c := by
  have heq : F.take k = (F.take k').take k := by
    rw [List.take_take, Nat.min_eq_left h]
  rw [heq]
  exact (List.take_sublist _ _).count_le _

theorem count_take_strict (F : List Char) {c d : Char} {k k' : Nat} (hkk : k < k')
    (hk : k < F.length) (hc : F.getD k d = c) :
    (F.take k).count c < (F.take k').count c := by
  have hck : F[k] = c := by rw [← hc, List.getD_eq_getElem F d hk]
  have h1 : (F.take (k + 1)).count c = (F.take k).count c + 1 := by
    rw [List.take_succ, List.count_append, List.getElem?_eq_getElem hk]
    simp [hck]
  have h2 := count_take_mono F c (show k + 1 ≤ k' by omega)
  omega

/-! ## The entries of `build_map` -/

theorem build_map_length (B : List Char) : (build_map B).length = B.length := by
  rw [build_map, buildLoop_length, sort_string_length]

theorem build_map_getD (B : List Char) (d₀ : Char) (k : Nat) (hk : k < B.length) :
    (build_map B).getD k 0
      = (occIndices B ((sort_string B).getD k d₀)).getD
          (((sort_string B).take k).count ((sort_string B).getD k d₀)) 0 := by
  rw [build_map]
  exact buildLoop_getD d₀ (sort_string B) (occIndices B) k (by rwa [sort_string_length])

theorem build_map_index_lt (B : List Char) (d₀ : Char) (k : Nat) (hk : k < B.length) :
    ((sort_string B).take k).count ((sort_string B).getD k d₀)
      < (occIndices B ((sort_string B).getD k d₀)).length := by
  rw [occIndices_length]
  have h := count_take_lt (F := sort_string B) (d := d₀)
    (show k < (sort_string B).length by rwa [sort_string_length])
  rwa [count_sort_string] at h

theorem build_map_mem_occ (B : List Char) (d₀ : Char) (k : Nat) (hk : k < B.length) :
    (build_map B).getD k 0 ∈ occIndices B ((sort_string B).getD k d₀) := by
  rw [build_map_getD B d₀ k hk]
  have hj := build_map_index_lt B d₀ k hk
  rw [List.getD_eq_getElem _ 0 hj]
  exact List.getElem_mem hj

theorem build_map_lt (B : List Char) (k : Nat) (hk : k < B.length) :
    (build_map B).getD k 0 < B.length :=
  (mem_occIndices.mp (build_map_mem_occ B ' ' k hk)).1

theorem build_map_char (B : List Char) (k : Nat) (hk : k < B.length) :
    B[(build_map B).getD k 0]? = some ((sort_string B).getD k ' ') :=
  (mem_occIndices.mp (build_map_mem_occ B ' ' k hk)).2

theorem nodup_getElem_inj {α : Type} {l : List α} (h : l.Nodup) {i j : Nat}
    (hi : i < l.length) (hj : j < l.length) (he : l[i] = l[j]) : i = j := by
  have h2 : (⟨i, hi⟩ : Fin l.length) = ⟨j, hj⟩ :=
    List.nodup_iff_injective_get.mp h (by simpa using he)
  simpa using congrArg Fin.val h2

theorem build_map_nodup (B : List Char) : (build_map B).Nodup := by
  rw [List.nodup_iff_injective_get]
  intro p q hpq
  have hp : p.1 < B.length :=
    Nat.lt_of_lt_of_le p.2 (Nat.le_of_eq (build_map_length B))
  have hq : q.1 < B.length :=
    Nat.lt_of_lt_of_le q.2 (Nat.le_of_eq (build_map_length B))
  have hval : (build_map B).getD p.1 0 = (build_map B).getD q.1 0 := by
    rw [List.getD_eq_getElem _ 0 p.2, List.getD_eq_getElem _ 0 q.2]
    simpa using hpq
  have hcp := build_map_char B p.1 hp
  have hcq := build_map_char B q.1 hq
  rw [hval] at hcp
  have hc : (sort_string B).getD p.1 ' ' = (sort_string B).getD q.1 ' ' :=
    Option.some.inj (hcp.symm.trans hcq)
  have hep := build_map_getD B ' ' p.1 hp
  have heq := build_map_getD B ' ' q.1 hq
  rw [hc] at hep
  rw [hep, heq] at hval
  have hjp : ((sort_string B).take p.1).count ((sort_string B).getD q.1 ' ')
      < (occIndices B ((sort_string B).getD q.1 ' ')).length := by
    have h3 := build_map_index_lt B ' ' p.1 hp
    rwa [hc] at h3
  have hjq := build_map_index_lt B ' ' q.1 hq
  rw [List.getD_eq_getElem _ 0 hjp, List.getD_eq_getElem _ 0 hjq] at hval
  have hj := nodup_getElem_inj (occIndices_nodup B _) hjp hjq hval
  apply Fin.ext
  rcases Nat.lt_trichotomy p.1 q.1 with hlt | h | hlt
  · exfalso
    have h4 := count_take_strict (sort_string B) hlt
      (show p.1 < (sort_string B).length by rwa [sort_string_length]) hc
    omega
  · exact h
  · exfalso
    have h4 := count_take_strict (sort_string B) (d := ' ') hlt
      (show q.1 < (sort_string B).length by rwa [sort_string_length]) rfl
    omega

theorem build_map_mem_lt (B : List Char) {x : Nat} (hx : x ∈ build_map B) :
    x < B.length := by
  obtain ⟨k, hk, rfl⟩ := List.mem_iff_getElem.mp hx
  have hkB : k < B.length := by rwa [build_map_length] at hk
  have h2 := build_map_lt B k hkB
  rwa [List.getD_eq_getElem _ 0 hk] at h2

/-- The LF map is a permutation of `[0, n)`. -/
theorem build_map_perm_range (B : List Char) :
    List.Perm (build_map B) (List.range B.length) := by
  have hnd := build_map_nodup B
  rw [List.perm_ext_iff_of_nodup hnd (List.nodup_range _)]
  intro a
  constructor
  · intro ha
    exact List.mem_range.mpr (build_map_mem_lt B ha)
  · intro ha
    have hsub : (build_map B).toFinset ⊆ Finset.range B.length := by
      intro x hx
      rw [List.mem_toFinset] at hx
      exact Finset.mem_range.mpr (build_map_mem_lt B hx)
    have heq : (build_map B).toFinset = Finset.range B.length := by
      apply Finset.eq_of_subset_of_card_le hsub
      rw [Finset.card_range, List.toFinset_card_of_nodup hnd, build_map_length]
    have h5 : a ∈ (build_map B).toFinset := by
      rw [heq, Finset.mem_range]
      exact List.mem_range.mp ha
    rwa [List.mem_toFinset] at h5

theorem build_map_count (B : List Char) {x : Nat} (hx : x < B.length) :
    (build_map B).count x = 1 :=
  List.count_eq_one_of_mem (build_map_nodup B)
    ((build_map_perm_range B).mem_iff.mpr (List.mem_range.mpr hx))

/-! ## Rotations -/

theorem rotl_length (t : List Char) (i : Nat) : (rotl t i).length = t.length := by
  simp [rotl]
  omega

theorem rotl_zero (t : List Char) : rotl t 0 = t := by
  simp [rotl]

theorem make_rotations_length (t : List Char) :
    (make_rotations t).length = t.length := by
  simp [make_rotations]

theorem make_rotations_getD (t : List Char) {i : Nat} (hi : i < t.length) :
    (make_rotations t).getD i [] = rotl t i := by
  rw [make_rotations, List.getD_eq_getElem _ _ (by simpa using hi), List.getElem_map,
    List.getElem_range, rotl, List.drop_append_eq_append_drop,
    Nat.sub_eq_zero_of_le (le_of_lt hi), List.drop_zero, List.take_append_eq_append_take,
    List.take_of_length_le (by simp), List.length_drop,
    show t.length - (t.length - i) = i by omega]

theorem rotl_perm (t : List Char) (i : Nat) : List.Perm (rotl t i) t := by
  have h := @List.perm_append_comm _ (t.drop i) (t.take i)
  rw [List.take_append_drop] at h
  exact h

theorem count_rotl (t : List Char) (i : Nat) (c : Char) :
    (rotl t i).count c = t.count c :=
  (rotl_perm t i).count_eq c

theorem rotl_ne_nil {t : List Char} (ht : t ≠ []) (i : Nat) : rotl t i ≠ [] := by
  intro h
  apply ht
  have h2 := rotl_length t i
  rw [h] at h2
  exact List.length_eq_zero.mp h2.symm

/-- Unfolding of a rotation: `rotl t i` is `t[i]` followed by all but the
last character of the next rotation. -/
theorem rotl_step (t : List Char) {i : Nat} (hi : i < t.length) :
    rotl t i = t.getD i ' ' :: (rotl t (nxt t.length i)).dropLast := by
  rw [nxt_eq hi]
  by_cases h1 : i + 1 = t.length
  · rw [if_pos h1, rotl_zero]
    have hi' : i = t.length - 1 := by omega
    subst hi'
    have hd : t.drop (t.length - 1) = [t.getD (t.length - 1) ' '] := by
      have h2 := List.getElem_cons_drop t (t.length - 1) (by omega)
      have h3 : List.drop (t.length - 1 + 1) t = [] := by
        rw [show t.length - 1 + 1 = t.length by omega]
        exact List.drop_length t
      rw [h3] at h2
      rw [← h2, List.getD_eq_getElem _ _ (by omega)]
    rw [rotl, hd, ← List.dropLast_eq_take]
    rfl
  · rw [if_neg h1]
    have hi1 : i + 1 < t.length := by omega
    have hL : rotl t i = t.getD i ' ' :: (t.drop (i + 1) ++ t.take i) := by
      rw [rotl, ← List.getElem_cons_drop t i hi, List.getD_eq_getElem _ _ hi]
      rfl
    have htk : t.take (i + 1) = t.take i ++ [t.getD i ' '] := by
      rw [List.take_succ, List.getElem?_eq_getElem hi, List.getD_eq_getElem _ _ hi]
      rfl
    rw [hL, rotl, htk, ← List.append_assoc, List.dropLast_concat]

/-- The last character of `rotl t i` is the character cyclically preceding
position `i` of `t`. -/
theorem rotl_getLast? (t : List Char) {i : Nat} (hi : i < t.length) :
    (rotl t i).getLast? = some (t.getD (prv t.length i) ' ') := by
  rw [prv_eq hi]
  by_cases h0 : i = 0
  · rw [if_pos h0, h0, rotl_zero, List.getLast?_eq_getElem?,
      List.getElem?_eq_getElem (show t.length - 1 < t.length by omega),
      ← List.getD_eq_getElem t ' ']
  · rw [if_neg h0, rotl]
    have hlen : (t.take i).length = i := by
      simp
      omega
    have htne : t.take i ≠ [] := by
      intro hnil
      rw [hnil] at hlen
      simp at hlen
      omega
    rw [List.getLast?_append_of_ne_nil _ htne, List.getLast?_eq_getElem?, hlen,
      List.getElem?_eq_getElem (show i - 1 < (t.take i).length by rw [hlen]; omega),
      List.getElem_take, ← List.getD_eq_getElem t ' ']

/-! ## The sentinel character -/

theorem sentinel_count {T : List Char} (hT : '$' ∉ T) :
    (T ++ ['$']).count '$' = 1 := by
  rw [List.count_append, List.count_eq_zero.mpr hT]
  rfl

theorem sentinel_getD (T : List Char) :
    (T ++ ['$']).getD T.length ' ' = '$' := by
  rw [List.getD_eq_getElem _ _ (by simp)]
  exact List.getElem_concat_length T '$' T.length rfl _

theorem rotl_sentinel_pos {T : List Char} {i : Nat}
    (hi : i < (T ++ ['$']).length) :
    (rotl (T ++ ['$']) i).getD ((T ++ ['$']).length - 1 - i) ' ' = '$' := by
  have hlen : (T ++ ['$']).length = T.length + 1 := by simp
  have hb : (T ++ ['$']).length - 1 - i < ((T ++ ['$']).drop i).length := by
    simp
    omega
  rw [rotl, List.getD_append _ _ _ _ hb, List.getD_eq_getElem _ _ hb,
    List.getElem_drop, ← List.getD_eq_getElem (T ++ ['$']) ' ',
    show i + ((T ++ ['$']).length - 1 - i) = T.length by simp; omega]
  exact sentinel_getD T

/-- Distinct offsets give distinct rotations, because the sentinel occurs
exactly once. -/
theorem rotl_inj {T : List Char} (hT : '$' ∉ T) {i j : Nat}
    (hi : i < (T ++ ['$']).length) (hj : j < (T ++ ['$']).length)
    (h : rotl (T ++ ['$']) i = rotl (T ++ ['$']) j) : i = j := by
  have hcnt : (rotl (T ++ ['$']) i).count '$' ≤ 1 := by
    rw [count_rotl, sentinel_count hT]
  have hpi := rotl_sentinel_pos (T := T) hi
  have hpj := rotl_sentinel_pos (T := T) hj
  rw [← h] at hpj
  have hlen := rotl_length (T ++ ['$']) i
  have h2 := getD_unique_of_count_le_one (l := rotl (T ++ ['$']) i)
    (by rw [hlen]; omega) (by rw [hlen]; omega) hcnt hpi hpj
  omega

/-! ## The sorted rotation array -/

/-- Comparison of offsets through their rotations. -/
def rotle (t : List Char) (i j : Nat) : Prop := rotl t i ≤ rotl t j

instance (t : List Char) : DecidableRel (rotle t) := fun i j =>
  inferInstanceAs (Decidable (rotl t i ≤ rotl t j))

/-- The offsets `0, …, n-1` sorted by the lexicographic order of the
corresponding rotations: a suffix-array-like view of `sort_rotations`. -/
def saOf (t : List Char) : List Nat :=
  (List.range t.length).insertionSort (rotle t)

theorem make_rotations_eq_map (t : List Char) :
    make_rotations t = (List.range t.length).map (rotl t) := by
  rw [make_rotations]
  apply List.map_congr_left
  intro i hi
  rw [List.mem_range] at hi
  rw [rotl, List.drop_append_eq_append_drop,
    Nat.sub_eq_zero_of_le (le_of_lt hi), List.drop_zero, List.take_append_eq_append_take,
    List.take_of_length_le (by simp), List.length_drop,
    show t.length - (t.length - i) = i by omega]

theorem sort_rotations_eq_saOf (t : List Char) :
    sort_rotations (make_rotations t) = (saOf t).map (rotl t) := by
  rw [sort_rotations, make_rotations_eq_map, saOf]
  exact (List.map_insertionSort (rotle t) (· ≤ ·) (rotl t) (List.range t.length)
    (fun a _ b _ => Iff.rfl)).symm

theorem saOf_perm (t : List Char) : List.Perm (saOf t) (List.range t.length) :=
  List.perm_insertionSort _ _

theorem saOf_length (t : List Char) : (saOf t).length = t.length := by
  rw [saOf, List.length_insertionSort, List.length_range]

theorem saOf_nodup (t : List Char) : (saOf t).Nodup :=
  (saOf_perm t).nodup_iff.mpr (List.nodup_range _)

theorem saOf_mem_lt (t : List Char) {x : Nat} (hx : x ∈ saOf t) : x < t.length :=
  List.mem_range.mp ((saOf_perm t).mem_iff.mp hx)

theorem saOf_getD_lt (t : List Char) {p : Nat} (hp : p < (saOf t).length) :
    (saOf t).getD p 0 < t.length := by
  apply saOf_mem_lt
  rw [List.getD_eq_getElem _ 0 hp]
  exact List.getElem_mem hp

theorem saOf_surj (t : List Char) {i : Nat} (hi : i < t.length) :
    ∃ p, ∃ hp : p < (saOf t).length, (saOf t)[p] = i := by
  have h : i ∈ saOf t := (saOf_perm t).mem_iff.mpr (List.mem_range.mpr hi)
  exact List.mem_iff_getElem.mp h

theorem saOf_sorted (t : List Char) : (saOf t).Sorted (rotle t) := by
  haveI : IsTotal Nat (rotle t) := ⟨fun i j => le_total (rotl t i) (rotl t j)⟩
  haveI : IsTrans Nat (rotle t) := ⟨fun i j k hij hjk => le_trans hij hjk⟩
  exact List.sorted_insertionSort _ _

theorem saOf_pairwise_lt {T : List Char} (hT : '$' ∉ T) :
    (saOf (T ++ ['$'])).Pairwise
      (fun i j => rotl (T ++ ['$']) i < rotl (T ++ ['$']) j) := by
  have hs := (saOf_sorted (T ++ ['$'])).and (saOf_nodup (T ++ ['$']))
  apply hs.imp_of_mem
  intro a b ha hb hab
  apply lt_of_le_of_ne hab.1
  intro hcontra
  exact hab.2 (rotl_inj hT (saOf_mem_lt _ ha) (saOf_mem_lt _ hb) hcontra)

theorem saOf_strict {T : List Char} (hT : '$' ∉ T) {p q : Nat}
    (hpq : p < q) (hq : q < (saOf (T ++ ['$'])).length) :
    rotl (T ++ ['$']) ((saOf (T ++ ['$'])).getD p 0)
      < rotl (T ++ ['$']) ((saOf (T ++ ['$'])).getD q 0) := by
  have hp : p < (saOf (T ++ ['$'])).length := by omega
  have h := List.pairwise_iff_get.mp (saOf_pairwise_lt hT) ⟨p, hp⟩ ⟨q, hq⟩ hpq
  rw [List.getD_eq_getElem _ 0 hp, List.getD_eq_getElem _ 0 hq]
  simpa [List.get_eq_getElem] using h

/-- The forward transform, expressed through the sorted offset array: the
BWT is the sequence of characters cyclically preceding each sorted
offset. -/
theorem bw_transform_eq_map (T : List Char) :
    bw_transform T '$' = (saOf (T ++ ['$'])).map
      (fun i => (T ++ ['$']).getD (prv (T ++ ['$']).length i) ' ') := by
  rw [bw_transform, sort_rotations_eq_saOf, sorted_rotations_to_bwt, List.filterMap_map]
  apply filterMap_eq_map_of_some
  intro i hi
  exact rotl_getLast? (T ++ ['$']) (saOf_mem_lt _ hi)

/-! ## Lexicographic comparison -/

theorem listchar_lt_iff (u v : List Char) : u < v ↔ List.Lex (· < ·) u v := Iff.rfl

theorem lex_head_le {a b : Char} {u v : List Char} (h : (a :: u) < (b :: v)) : a ≤ b := by
  rw [listchar_lt_iff] at h
  cases h with
  | cons h2 => exact le_refl _
  | rel h2 => exact le_of_lt h2

theorem lex_cons_iff {a : Char} {u v : List Char} : (a :: u) < (a :: v) ↔ u < v := by
  rw [listchar_lt_iff, listchar_lt_iff]
  exact List.Lex.cons_iff

/-- Comparing two distinct lists of the same length is unaffected by
appending one character to each. -/
theorem append_singleton_lt_iff :
    ∀ (u v : List Char) (x y : Char), u.length = v.length → u ≠ v →
      ((u ++ [x]) < (v ++ [y]) ↔ u < v)
  | [], [], _, _, _, hne => absurd rfl hne
  | [], _ :: _, _, _, hlen, _ => by simp at hlen
  | _ :: _, [], _, _, hlen, _ => by simp at hlen
  | a :: u, b :: v, x, y, hlen, hne => by
    rcases lt_trichotomy a b with hab | hab | hab
    · constructor <;> intro h
      · exact (listchar_lt_iff _ _).mpr (List.Lex.rel hab)
      · exact (listchar_lt_iff _ _).mpr (List.Lex.rel hab)
    · subst hab
      have hlen' : u.length = v.length := by simpa using hlen
      have hne' : u ≠ v := fun h => hne (by rw [h])
      rw [show (a :: u) ++ [x] = a :: (u ++ [x]) from rfl,
        show (a :: v) ++ [y] = a :: (v ++ [y]) from rfl,
        lex_cons_iff, lex_cons_iff]
      exact append_singleton_lt_iff u v x y hlen' hne'
    · constructor <;> intro h
      · exfalso
        rw [listchar_lt_iff] at h
        cases h with
        | cons h2 => exact absurd hab (lt_irrefl _)
        | rel h2 => exact absurd h2 (lt_asymm hab)
      · exfalso
        rw [listchar_lt_iff] at h
        cases h with
        | cons h2 => exact absurd hab (lt_irrefl _)
        | rel h2 => exact absurd h2 (lt_asymm hab)

theorem rotl_headD {t : List Char} {i : Nat} (hi : i < t.length) :
    (rotl t i).headD ' ' = t.getD i ' ' := by
  rw [rotl_step t hi]
  rfl

/-! ## The first column -/

theorem map_getD_range (t : List Char) :
    (List.range t.length).map (fun i => t.getD i ' ') = t := by
  apply List.ext_getElem
  · simp
  · intro i h1 h2
    rw [List.getElem_map, List.getElem_range, List.getD_eq_getElem _ _ h2]

theorem prv_inj {n i j : Nat} (hi : i < n) (hj : j < n) (h : prv n i = prv n j) :
    i = j := by
  have h2 := nxt_prv hi
  have h3 := nxt_prv hj
  rw [h] at h2
  rw [← h2, h3]

theorem map_prv_perm {n : Nat} (hn : 0 < n) :
    List.Perm ((List.range n).map (prv n)) (List.range n) := by
  rw [List.perm_ext_iff_of_nodup _ (List.nodup_range _)]
  · intro a
    constructor
    · intro ha
      obtain ⟨i, hi, rfl⟩ := List.mem_map.mp ha
      exact List.mem_range.mpr (prv_lt hn i)
    · intro ha
      have ha' := List.mem_range.mp ha
      apply List.mem_map.mpr
      exact ⟨nxt n a, List.mem_range.mpr (nxt_lt hn a), prv_nxt ha'⟩
  · apply (List.nodup_range n).map_on
    intro i hi j hj h
    exact prv_inj (List.mem_range.mp hi) (List.mem_range.mp hj) h

/-- The BWT of `T ++ ['$']` is a permutation of the characters of
`T ++ ['$']`. -/
theorem bw_transform_perm (T : List Char) (hT : '$' ∉ T) :
    List.Perm (bw_transform T '$') (T ++ ['$']) := by
  rw [bw_transform_eq_map]
  have hn : 0 < (T ++ ['$']).length := by simp
  have h1 : List.Perm ((saOf (T ++ ['$'])).map
      (fun i => (T ++ ['$']).getD (prv (T ++ ['$']).length i) ' '))
      ((List.range (T ++ ['$']).length).map
        (fun i => (T ++ ['$']).getD (prv (T ++ ['$']).length i) ' ')) :=
    (saOf_perm _).map _
  have h2 : (List.range (T ++ ['$']).length).map
      (fun i => (T ++ ['$']).getD (prv (T ++ ['$']).length i) ' ')
      = ((List.range (T ++ ['$']).length).map (prv (T ++ ['$']).length)).map
        (fun i => (T ++ ['$']).getD i ' ') := by
    rw [List.map_map]
    rfl
  have h3 : List.Perm
      (((List.range (T ++ ['$']).length).map (prv (T ++ ['$']).length)).map
        (fun i => (T ++ ['$']).getD i ' '))
      ((List.range (T ++ ['$']).length).map (fun i => (T ++ ['$']).getD i ' ')) :=
    (map_prv_perm hn).map _
  rw [h2] at h1
  have h4 := h1.trans h3
  rw [map_getD_range] at h4
  exact h4

/-- The first column: sorting the BWT gives exactly the heads of the sorted
rotations. -/
theorem sort_string_bwt (T : List Char) (hT : '$' ∉ T) :
    sort_string (bw_transform T '$')
      = (saOf (T ++ ['$'])).map (fun i => (T ++ ['$']).getD i ' ') := by
  apply List.eq_of_perm_of_sorted (r := (· ≤ ·))
  · have h1 := sort_string_perm (bw_transform T '$')
    have h2 := bw_transform_perm T hT
    have h3 : List.Perm (T ++ ['$'])
        ((saOf (T ++ ['$'])).map (fun i => (T ++ ['$']).getD i ' ')) := by
      have h4 := ((saOf_perm (T ++ ['$'])).map (fun i => (T ++ ['$']).getD i ' ')).symm
      rw [map_getD_range] at h4
      exact h4
    exact (h1.trans h2).trans h3
  · exact sort_string_sorted _
  · show List.Pairwise (· ≤ ·)
      ((saOf (T ++ ['$'])).map (fun i => (T ++ ['$']).getD i ' '))
    rw [List.pairwise_map]
    apply (saOf_pairwise_lt hT).imp_of_mem
    intro a b ha hb hab
    have hal := saOf_mem_lt _ ha
    have hbl := saOf_mem_lt _ hb
    rw [rotl_step _ hal, rotl_step _ hbl] at hab
    exact lex_head_le hab

/-! ## The last-first correspondence -/

/-- Rotations starting with the same character compare in the same way as
their cyclic successors. -/
theorem rotl_lt_next {T : List Char} (hT : '$' ∉ T) {a b : Nat}
    (ha : a < (T ++ ['$']).length) (hb : b < (T ++ ['$']).length)
    (hc : (T ++ ['$']).getD a ' ' = (T ++ ['$']).getD b ' ')
    (hab : rotl (T ++ ['$']) a < rotl (T ++ ['$']) b) :
    rotl (T ++ ['$']) (nxt (T ++ ['$']).length a)
      < rotl (T ++ ['$']) (nxt (T ++ ['$']).length b) := by
  have hn : 0 < (T ++ ['$']).length := by simp
  have hne : a ≠ b := by
    intro h
    rw [h] at hab
    exact lt_irrefl _ hab
  rw [rotl_step _ ha, rotl_step _ hb, hc, lex_cons_iff] at hab
  have hga : (rotl (T ++ ['$']) (nxt (T ++ ['$']).length a)).getLast?
      = some ((T ++ ['$']).getD b ' ') := by
    rw [rotl_getLast? _ (nxt_lt hn a), prv_nxt ha, hc]
  have hgb : (rotl (T ++ ['$']) (nxt (T ++ ['$']).length b)).getLast?
      = some ((T ++ ['$']).getD b ' ') := by
    rw [rotl_getLast? _ (nxt_lt hn b), prv_nxt hb]
  have hda := List.dropLast_append_getLast? ((T ++ ['$']).getD b ' ')
    (Option.mem_def.mpr hga)
  have hdb := List.dropLast_append_getLast? ((T ++ ['$']).getD b ' ')
    (Option.mem_def.mpr hgb)
  have hlen2 : (rotl (T ++ ['$']) (nxt (T ++ ['$']).length a)).dropLast.length
      = (rotl (T ++ ['$']) (nxt (T ++ ['$']).length b)).dropLast.length := by
    rw [List.length_dropLast, List.length_dropLast, rotl_length, rotl_length]
  have hne2 : (rotl (T ++ ['$']) (nxt (T ++ ['$']).length a)).dropLast
      ≠ (rotl (T ++ ['$']) (nxt (T ++ ['$']).length b)).dropLast := by
    intro h
    have h6 : rotl (T ++ ['$']) (nxt (T ++ ['$']).length a)
        = rotl (T ++ ['$']) (nxt (T ++ ['$']).length b) := by
      rw [← hda, ← hdb, h]
    exact hne (nxt_inj ha hb (rotl_inj hT (nxt_lt hn a) (nxt_lt hn b) h6))
  rw [← hda, ← hdb]
  exact (append_singleton_lt_iff _ _ _ _ hlen2 hne2).mpr hab

theorem bwt_length (T : List Char) :
    (bw_transform T '$').length = (T ++ ['$']).length := by
  rw [bw_transform_eq_map, List.length_map, saOf_length]

theorem bwt_getD (T : List Char) {p : Nat} (hp : p < (T ++ ['$']).length) :
    (bw_transform T '$').getD p ' '
      = (T ++ ['$']).getD (prv (T ++ ['$']).length ((saOf (T ++ ['$'])).getD p 0)) ' ' := by
  have hp' : p < (saOf (T ++ ['$'])).length := by rw [saOf_length]; exact hp
  rw [bw_transform_eq_map, List.getD_eq_getElem _ _ (by rw [List.length_map]; exact hp'),
    List.getElem_map, ← List.getD_eq_getElem _ 0 hp']

theorem first_getD (T : List Char) (hT : '$' ∉ T) {k : Nat}
    (hk : k < (T ++ ['$']).length) :
    (sort_string (bw_transform T '$')).getD k ' '
      = (T ++ ['$']).getD ((saOf (T ++ ['$'])).getD k 0) ' ' := by
  have hk' : k < (saOf (T ++ ['$'])).length := by rw [saOf_length]; exact hk
  rw [sort_string_bwt T hT, List.getD_eq_getElem _ _ (by rw [List.length_map]; exact hk'),
    List.getElem_map, ← List.getD_eq_getElem _ 0 hk']

theorem mem_occIndices_getD {B : List Char} {c : Char} {x : Nat} :
    x ∈ occIndices B c ↔ x < B.length ∧ B.getD x ' ' = c := by
  rw [mem_occIndices]
  constructor
  · intro h
    obtain ⟨h1, h2⟩ := h
    refine ⟨h1, ?_⟩
    rw [List.getD_eq_getElem _ _ h1]
    exact Option.some.inj ((List.getElem?_eq_getElem h1).symm.trans h2)
  · intro h
    obtain ⟨h1, h2⟩ := h
    refine ⟨h1, ?_⟩
    rw [List.getElem?_eq_getElem h1, ← List.getD_eq_getElem _ ' ' h1, h2]

/-- The heart of the LF correspondence: for each character `c`, the rows
whose last character is `c`, read in row order, are the cyclic successors
of the rows whose first character is `c`, read in row order. -/
theorem star_lemma (T : List Char) (hT : '$' ∉ T) (c : Char) :
    (occIndices (bw_transform T '$') c).map (fun p => (saOf (T ++ ['$'])).getD p 0)
      = (occIndices (sort_string (bw_transform T '$')) c).map
          (fun k => nxt (T ++ ['$']).length ((saOf (T ++ ['$'])).getD k 0)) := by
  have hn : 0 < (T ++ ['$']).length := by simp
  have hbl := bwt_length T
  have hFl : (sort_string (bw_transform T '$')).length = (T ++ ['$']).length := by
    rw [sort_string_length, hbl]
  have hsal := saOf_length (T ++ ['$'])
  haveI : IsAntisymm Nat (fun i j => rotl (T ++ ['$']) i < rotl (T ++ ['$']) j) :=
    ⟨fun a b h1 h2 => absurd h2 (lt_asymm h1)⟩
  apply List.eq_of_perm_of_sorted
    (r := fun i j => rotl (T ++ ['$']) i < rotl (T ++ ['$']) j)
  · have hnd1 : ((occIndices (bw_transform T '$') c).map
        (fun p => (saOf (T ++ ['$'])).getD p 0)).Nodup := by
      refine (occIndices_nodup _ _).map_on ?_
      intro p hp q hq hpq
      have hpl : p < (saOf (T ++ ['$'])).length := by
        rw [hsal, ← hbl]
        exact (mem_occIndices.mp hp).1
      have hql : q < (saOf (T ++ ['$'])).length := by
        rw [hsal, ← hbl]
        exact (mem_occIndices.mp hq).1
      rw [List.getD_eq_getElem _ 0 hpl, List.getD_eq_getElem _ 0 hql] at hpq
      exact nodup_getElem_inj (saOf_nodup _) hpl hql hpq
    have hnd2 : ((occIndices (sort_string (bw_transform T '$')) c).map
        (fun k => nxt (T ++ ['$']).length ((saOf (T ++ ['$'])).getD k 0))).Nodup := by
      refine (occIndices_nodup _ _).map_on ?_
      intro k hk k' hk' he
      have hkl : k < (saOf (T ++ ['$'])).length := by
        rw [hsal, ← hFl]
        exact (mem_occIndices.mp hk).1
      have hk'l : k' < (saOf (T ++ ['$'])).length := by
        rw [hsal, ← hFl]
        exact (mem_occIndices.mp hk').1
      have h1 := nxt_inj (saOf_getD_lt _ hkl) (saOf_getD_lt _ hk'l) he
      rw [List.getD_eq_getElem _ 0 hkl, List.getD_eq_getElem _ 0 hk'l] at h1
      exact nodup_getElem_inj (saOf_nodup _) hkl hk'l h1
    have hchar1 : ∀ x, (x ∈ (occIndices (bw_transform T '$') c).map
        (fun p => (saOf (T ++ ['$'])).getD p 0))
        ↔ (x < (T ++ ['$']).length ∧
            (T ++ ['$']).getD (prv (T ++ ['$']).length x) ' ' = c) := by
      intro x
      constructor
      · intro hx
        obtain ⟨p, hp, rfl⟩ := List.mem_map.mp hx
        obtain ⟨hpB, hpc⟩ := mem_occIndices_getD.mp hp
        have hpn : p < (T ++ ['$']).length := by rw [← hbl]; exact hpB
        have hpl : p < (saOf (T ++ ['$'])).length := by rw [hsal]; exact hpn
        refine ⟨saOf_getD_lt _ hpl, ?_⟩
        rw [← bwt_getD T hpn]
        exact hpc
      · intro hx
        obtain ⟨hxn, hxc⟩ := hx
        obtain ⟨p, hpl, hpe⟩ := saOf_surj (T ++ ['$']) hxn
        apply List.mem_map.mpr
        refine ⟨p, ?_, ?_⟩
        · apply mem_occIndices_getD.mpr
          have hpn : p < (T ++ ['$']).length := by rw [← hsal]; exact hpl
          refine ⟨by rw [hbl]; exact hpn, ?_⟩
          rw [bwt_getD T hpn, List.getD_eq_getElem _ 0 hpl, hpe]
          exact hxc
        · rw [List.getD_eq_getElem _ 0 hpl]
          exact hpe
    have hchar2 : ∀ x, (x ∈ (occIndices (sort_string (bw_transform T '$')) c).map
        (fun k => nxt (T ++ ['$']).length ((saOf (T ++ ['$'])).getD k 0)))
        ↔ (x < (T ++ ['$']).length ∧
            (T ++ ['$']).getD (prv (T ++ ['$']).length x) ' ' = c) := by
      intro x
      constructor
      · intro hx
        obtain ⟨k, hk, rfl⟩ := List.mem_map.mp hx
        obtain ⟨hkF, hkc⟩ := mem_occIndices_getD.mp hk
        have hkn : k < (T ++ ['$']).length := by rw [← hFl]; exact hkF
        have hkl : k < (saOf (T ++ ['$'])).length := by rw [hsal]; exact hkn
        have hsk := saOf_getD_lt (T ++ ['$']) hkl
        refine ⟨nxt_lt hn _, ?_⟩
        rw [prv_nxt hsk, ← first_getD T hT hkn]
        exact hkc
      · intro hx
        obtain ⟨hxn, hxc⟩ := hx
        have hpx : prv (T ++ ['$']).length x < (T ++ ['$']).length := prv_lt hn x
        obtain ⟨k, hkl, hke⟩ := saOf_surj (T ++ ['$']) hpx
        apply List.mem_map.mpr
        refine ⟨k, ?_, ?_⟩
        · apply mem_occIndices_getD.mpr
          have hkn : k < (T ++ ['$']).length := by rw [← hsal]; exact hkl
          refine ⟨by rw [hFl]; exact hkn, ?_⟩
          rw [first_getD T hT hkn, List.getD_eq_getElem _ 0 hkl, hke]
          exact hxc
        · rw [List.getD_eq_getElem _ 0 hkl, hke]
          exact nxt_prv hxn
    rw [List.perm_ext_iff_of_nodup hnd1 hnd2]
    intro x
    exact (hchar1 x).trans (hchar2 x).symm
  · show List.Pairwise _ _
    rw [List.pairwise_map]
    refine (occIndices_pairwise _ _).imp_of_mem ?_
    intro p q hp hq hpq
    have hql : q < (saOf (T ++ ['$'])).length := by
      rw [hsal, ← hbl]
      exact (mem_occIndices.mp hq).1
    exact saOf_strict hT hpq hql
  · show List.Pairwise _ _
    rw [List.pairwise_map]
    refine (occIndices_pairwise _ _).imp_of_mem ?_
    intro k k' hk hk' hkk
    have hkn : k < (T ++ ['$']).length := by
      rw [← hFl]
      exact (mem_occIndices.mp hk).1
    have hk'n : k' < (T ++ ['$']).length := by
      rw [← hFl]
      exact (mem_occIndices.mp hk').1
    have hkl : k < (saOf (T ++ ['$'])).length := by rw [hsal]; exact hkn
    have hk'l : k' < (saOf (T ++ ['$'])).length := by rw [hsal]; exact hk'n
    apply rotl_lt_next hT (saOf_getD_lt _ hkl) (saOf_getD_lt _ hk'l)
    · have h1 := (mem_occIndices_getD.mp hk).2
      have h2 := (mem_occIndices_getD.mp hk').2
      rw [first_getD T hT hkn] at h1
      rw [first_getD T hT hk'n] at h2
      rw [h1, h2]
    · exact saOf_strict hT hkk hk'l

/-- The position of the `j`-th occurrence (in sorted order) of the
character at position `k` is `k` itself. -/
theorem occIndices_rank (B : List Char) {k : Nat} (hk : k < B.length) :
    (occIndices B (B.getD k ' '))[(B.take k).count (B.getD k ' ')]? = some k := by
  rw [occIndices]
  have hcnt := length_filter_range_eq_count B (B.getD k ' ') k (le_of_lt hk)
  rw [← hcnt]
  apply filter_range_getElem? _ hk
  simp [List.getElem?_eq_getElem hk, List.getD_eq_getElem B ' ' hk]

/-- The LF property: following `build_map` from row `k` lands on the row
of the cyclically next rotation. -/
theorem lf_property (T : List Char) (hT : '$' ∉ T) {k : Nat}
    (hk : k < (T ++ ['$']).length) :
    (build_map (bw_transform T '$')).getD k 0 < (T ++ ['$']).length ∧
      (saOf (T ++ ['$'])).getD ((build_map (bw_transform T '$')).getD k 0) 0
        = nxt (T ++ ['$']).length ((saOf (T ++ ['$'])).getD k 0) := by
  have hbl := bwt_length T
  have hkB : k < (bw_transform T '$').length := by rw [hbl]; exact hk
  constructor
  · rw [← hbl]
    exact build_map_lt _ k hkB
  · have hent := build_map_getD (bw_transform T '$') ' ' k hkB
    have hj := build_map_index_lt (bw_transform T '$') ' ' k hkB
    have hFl : (sort_string (bw_transform T '$')).length = (T ++ ['$']).length := by
      rw [sort_string_length, hbl]
    have hkF : k < (sort_string (bw_transform T '$')).length := by rw [hFl]; exact hk
    have hrank := occIndices_rank (sort_string (bw_transform T '$')) hkF
    have hstar := star_lemma T hT ((sort_string (bw_transform T '$')).getD k ' ')
    have hj2 := congrArg
      (fun l => l[((sort_string (bw_transform T '$')).take k).count
        ((sort_string (bw_transform T '$')).getD k ' ')]?) hstar
    simp only [List.getElem?_map] at hj2
    rw [hrank, List.getElem?_eq_getElem hj] at hj2
    simp only [Option.map_some'] at hj2
    rw [hent, List.getD_eq_getElem _ 0 hj]
    exact Option.some.inj hj2

/-! ## The inversion walk -/

theorem lfWalk_isSome (B : List Char) :
    ∀ (m x : Nat), x < B.length →
      ∃ l, lfWalk B (build_map B) x m = some l ∧ l.length = m
  | 0, x, _ => ⟨[], rfl, rfl⟩
  | m + 1, x, hx => by
    have hxm : x < (build_map B).length := by rw [build_map_length]; exact hx
    have hbm := build_map_lt B x hx
    obtain ⟨l, hl, hlen⟩ := lfWalk_isSome B m ((build_map B).getD x 0) hbm
    have h1 : (build_map B)[x]? = some ((build_map B).getD x 0) := by
      rw [List.getElem?_eq_getElem hxm, List.getD_eq_getElem _ 0 hxm]
    have h2 : B[(build_map B).getD x 0]?
        = some (B.getD ((build_map B).getD x 0) ' ') := by
      rw [List.getElem?_eq_getElem hbm, List.getD_eq_getElem _ ' ' hbm]
    refine ⟨B.getD ((build_map B).getD x 0) ' ' :: l, ?_, by simp [hlen]⟩
    simp only [lfWalk, h1, h2, hl, Option.map_some']

/-- The inversion walk, starting from the row whose rotation begins at
offset `i`, reproduces the text from position `i` on. -/
theorem lfWalk_spec (T : List Char) (hT : '$' ∉ T) :
    ∀ (m i x : Nat), i + m ≤ (T ++ ['$']).length → x < (T ++ ['$']).length →
      (saOf (T ++ ['$'])).getD x 0 = i % (T ++ ['$']).length →
      lfWalk (bw_transform T '$') (build_map (bw_transform T '$')) x m
        = some (((T ++ ['$']).drop (i % (T ++ ['$']).length)).take m)
  | 0, i, x, him, hx, hsa => by simp [lfWalk]
  | m + 1, i, x, him, hx, hsa => by
    have hn : 0 < (T ++ ['$']).length := by simp
    have hin : i < (T ++ ['$']).length := by omega
    have himod : i % (T ++ ['$']).length = i := Nat.mod_eq_of_lt hin
    have hlf := lf_property T hT hx
    have hx2 := hlf.1
    have hsa2 : (saOf (T ++ ['$'])).getD ((build_map (bw_transform T '$')).getD x 0) 0
        = (i + 1) % (T ++ ['$']).length := by
      rw [hlf.2, hsa, himod]
      rfl
    have hxm : x < (build_map (bw_transform T '$')).length := by
      rw [build_map_length, bwt_length]
      exact hx
    have hx2B : (build_map (bw_transform T '$')).getD x 0
        < (bw_transform T '$').length := by
      rw [bwt_length]
      exact hx2
    have h1 : (build_map (bw_transform T '$'))[x]?
        = some ((build_map (bw_transform T '$')).getD x 0) := by
      rw [List.getElem?_eq_getElem hxm, List.getD_eq_getElem _ 0 hxm]
    have h2 : (bw_transform T '$')[(build_map (bw_transform T '$')).getD x 0]?
        = some ((bw_transform T '$').getD
          ((build_map (bw_transform T '$')).getD x 0) ' ') := by
      rw [List.getElem?_eq_getElem hx2B, List.getD_eq_getElem _ ' ' hx2B]
    have hchar : (bw_transform T '$').getD
        ((build_map (bw_transform T '$')).getD x 0) ' ' = (T ++ ['$']).getD i ' ' := by
      rw [bwt_getD T hx2, hsa2]
      congr 1
      rw [show (i + 1) % (T ++ ['$']).length = nxt (T ++ ['$']).length i from rfl,
        prv_nxt hin]
    have hih := lfWalk_spec T hT m (i + 1) ((build_map (bw_transform T '$')).getD x 0)
      (by omega) hx2 hsa2
    simp only [lfWalk, h1, h2, hih, Option.map_some']
    rw [himod, hchar]
    congr 1
    have hdrop : (T ++ ['$']).drop i
        = (T ++ ['$']).getD i ' ' :: (T ++ ['$']).drop (i + 1) := by
      rw [List.getD_eq_getElem _ ' ' hin, List.getElem_cons_drop]
    rw [hdrop, List.take_succ_cons]
    by_cases h3 : i + 1 < (T ++ ['$']).length
    · rw [Nat.mod_eq_of_lt h3]
    · have hm0 : m = 0 := by omega
      have h4 : i + 1 = (T ++ ['$']).length := by omega
      rw [hm0, h4, Nat.mod_self]
      simp

/-- The full round trip with the default sentinel. -/
theorem round_trip (T : List Char) (hT : '$' ∉ T) :
    invert_bwt_via_map (bw_transform T '$') '$' = some T := by
  have hn : 0 < (T ++ ['$']).length := by simp
  have hmem : '$' ∈ bw_transform T '$' := by
    apply (bw_transform_perm T hT).mem_iff.mpr
    simp
  have hx0lt : List.indexOf '$' (bw_transform T '$') < (bw_transform T '$').length :=
    List.indexOf_lt_length.mpr hmem
  have hx0n : List.indexOf '$' (bw_transform T '$') < (T ++ ['$']).length := by
    rw [← bwt_length]
    exact hx0lt
  have hx0val : (bw_transform T '$').getD
      (List.indexOf '$' (bw_transform T '$')) ' ' = '$' := by
    rw [List.getD_eq_getElem _ ' ' hx0lt]
    exact List.getElem_indexOf hx0lt
  have hsax0 : (saOf (T ++ ['$'])).getD (List.indexOf '$' (bw_transform T '$')) 0
      = 0 := by
    rw [bwt_getD T hx0n] at hx0val
    have hsa : (saOf (T ++ ['$'])).getD (List.indexOf '$' (bw_transform T '$')) 0
        < (T ++ ['$']).length :=
      saOf_getD_lt _ (by rw [saOf_length]; exact hx0n)
    have hprv := prv_lt hn
      ((saOf (T ++ ['$'])).getD (List.indexOf '$' (bw_transform T '$')) 0)
    have hTlen : T.length < (T ++ ['$']).length := by simp
    have hcnt : (T ++ ['$']).count '$' ≤ 1 := le_of_eq (sentinel_count hT)
    have heq := getD_unique_of_count_le_one (l := T ++ ['$']) hprv hTlen hcnt hx0val
      (sentinel_getD T)
    have h5 := congrArg (nxt (T ++ ['$']).length) heq
    rw [nxt_prv hsa] at h5
    rw [h5, nxt_eq hTlen, if_pos (by simp)]
  have hwalk := lfWalk_spec T hT (T ++ ['$']).length 0
    (List.indexOf '$' (bw_transform T '$')) (by omega) hx0n
    (by rw [hsax0, Nat.zero_mod])
  rw [Nat.zero_mod, List.drop_zero, List.take_length] at hwalk
  rw [invert_bwt_via_map, text_using_map, if_pos hmem, bwt_length, hwalk,
    Option.map_some', List.dropLast_concat]

/-! ## Lengths of the transform and of the inversion -/

theorem length_filterMap_eq {α β : Type} (f : α → Option β) :
    ∀ l : List α, (∀ a ∈ l, (f a).isSome = true) → (l.filterMap f).length = l.length
  | [], _ => rfl
  | a :: l, h => by
    have ha := h a (by simp)
    rw [List.filterMap_cons]
    cases hfa : f a with
    | none =>
      rw [hfa] at ha
      simp at ha
    | some b =>
      simp only [List.length_cons]
      rw [length_filterMap_eq f l (fun x hx => h x (by simp [hx]))]

theorem bw_transform_length (text : List Char) (end_char : Char) :
    (bw_transform text end_char).length = text.length + 1 := by
  rw [bw_transform, sorted_rotations_to_bwt, length_filterMap_eq]
  · rw [sort_rotations, List.length_insertionSort, make_rotations_length]
    simp
  · intro r hr
    rw [sort_rotations, List.mem_insertionSort, make_rotations_eq_map] at hr
    obtain ⟨i, hi, rfl⟩ := List.mem_map.mp hr
    rw [List.getLast?_isSome]
    exact rotl_ne_nil (by simp) i

theorem text_using_map_length (B : List Char) (hmem : '$' ∈ B) :
    ∃ l, text_using_map B (build_map B) = some l ∧ l.length = B.length := by
  have hx0 : List.indexOf '$' B < B.length := List.indexOf_lt_length.mpr hmem
  obtain ⟨l, hl, hlen⟩ := lfWalk_isSome B B.length (List.indexOf '$' B) hx0
  exact ⟨l, by rw [text_using_map, if_pos hmem]; exact hl, hlen⟩

theorem invert_length (B : List Char) (hmem : '$' ∈ B) :
    ∃ l, invert_bwt_via_map B '$' = some l ∧ l.length = B.length - 1 := by
  obtain ⟨l, hl, hlen⟩ := text_using_map_length B hmem
  refine ⟨l.dropLast, ?_, by rw [List.length_dropLast, hlen]⟩
  rw [invert_bwt_via_map, hl, Option.map_some']

/-! ## The character order used by the sorts -/

theorem sentinel_lt_of_alphabet {c : Char} (h1 : ALPHABET c = true) (h2 : c ≠ ' ') :
    '$' < c := by
  rw [ALPHABET] at h1
  simp only [Bool.or_eq_true, Bool.and_eq_true, decide_eq_true_eq, beq_iff_eq] at h1
  have hval : 36 < c.toNat := by
    rcases h1 with ((h | h) | h) | h
    · exfalso
      apply h2
      exact Char.ext (UInt32.ext h)
    · omega
    · omega
    · omega
  show ('$' : Char).toNat < c.toNat
  simpa using hval

theorem sort_string_head_sentinel (s : List Char) (hmem : '$' ∈ s)
    (halph : ∀ c ∈ s, c = '$' ∨ (ALPHABET c = true ∧ c ≠ ' ')) :
    (sort_string s).head? = some '$' := by
  have hmem' : '$' ∈ sort_string s := (sort_string_perm s).mem_iff.mpr hmem
  have hsort := sort_string_sorted s
  cases hh : sort_string s with
  | nil =>
    rw [hh] at hmem'
    simp at hmem'
  | cons a l =>
    rw [List.head?_cons, Option.some.injEq]
    have hamem : a ∈ s := (sort_string_perm s).mem_iff.mp (by rw [hh]; simp)
    rcases halph a hamem with h | h
    · exact h
    · exfalso
      have hlt : '$' < a := sentinel_lt_of_alphabet h.1 h.2
      rw [hh] at hmem'
      rcases List.mem_cons.mp hmem' with h3 | h3
      · rw [← h3] at hlt
        exact lt_irrefl _ hlt
      · rw [hh] at hsort
        have h4 := (List.pairwise_cons.mp hsort).1 '$' h3
        exact absurd h4 (not_le_of_lt hlt)

/-! ## Validation of decode inputs -/

theorem validate_bwt_rejects (s : List Char)
    (halph : ∀ c ∈ s, ALPHABET c = true ∨ c = '$')
    (hcnt : s.count '$' = 0 ∨ 1 < s.count '$') :
    ∃ msg, validate_bwt s = Except.error msg := by
  have hfe : (List.range s.length).filter (fun i => !(ALPHABET (s.getD i ' ')))
      = (List.range s.length).filter (fun i => decide (s[i]? = some '$')) := by
    apply List.filter_congr
    intro i hi
    have hil := List.mem_range.mp hi
    rw [List.getD_eq_getElem _ ' ' hil, List.getElem?_eq_getElem hil]
    rcases halph s[i] (List.getElem_mem hil) with h | h
    · have hne : s[i] ≠ '$' := by
        intro hc
        rw [hc] at h
        exact absurd h (by decide)
      rw [h]
      simp [hne]
    · rw [h]
      decide
  have hlen : ((List.range s.length).filter (fun i => !(ALPHABET (s.getD i ' ')))).length
      = s.count '$' := by
    rw [hfe]
    have h2 := length_filter_range_eq_count s '$' s.length (le_refl _)
    rwa [List.take_length] at h2
  rcases hind : (List.range s.length).filter (fun i => !(ALPHABET (s.getD i ' ')))
    with _ | ⟨i, rest⟩
  · exact ⟨"String has no symbols.", by rw [validate_bwt, hind]⟩
  · rcases rest with _ | ⟨j, rest2⟩
    · exfalso
      rw [hind] at hlen
      simp at hlen
      omega
    · exact ⟨"String has more than one symbols.", by rw [validate_bwt, hind]⟩

/-! ## The claims -/

/-- C1: the spec's round-trip law quantifies over every sentinel `s`, but
the code fails it for `s ≠ '$'`: at `T = "a"`, `s = 'x'`, the forward
transform yields `"xa"`, and `invert_bwt_via_map("xa", 'x')` raises a
`ValueError` (modelled as `none`) because `text_using_map` is called
without forwarding `end_char` and searches for the default `'$'`, which is
absent. -/
theorem C1_roundtrip_failing_eval :
    bw_transform ['a'] 'x' = ['x', 'a'] ∧
      invert_bwt_via_map (bw_transform ['a'] 'x') 'x' = none := by
  decide

/-- C2 counterexample: the space character belongs to the permitted
alphabet yet sorts before the sentinel `'$'` in the code-point order used
by `sort_string`, so a string containing the sentinel need not have it at
position 0 of the sorted output. -/
theorem C2_counterexample :
    ALPHABET ' ' = true ∧ '$' ∈ [' ', '$'] ∧
      sort_string [' ', '$'] = [' ', '$'] ∧ ¬('$' < ' ') := by
  decide

/-- C2 (amended): in the code-point order used by the sorts, the sentinel
`'$'` precedes every digit and ASCII letter but follows the space; in
particular `sort_string` places the sentinel at position 0 for every
string containing it whose other characters are space-free alphabet
characters. -/
theorem C2_sentinel_order (s : List Char) (hmem : '$' ∈ s)
    (halph : ∀ c ∈ s, c = '$' ∨ (ALPHABET c = true ∧ c ≠ ' ')) :
    (sort_string s).head? = some '$' ∧
      ∀ c : Char, ALPHABET c = true → c ≠ ' ' → '$' < c :=
  ⟨sort_string_head_sentinel s hmem halph,
    fun _ h1 h2 => sentinel_lt_of_alphabet h1 h2⟩

theorem C2_witness :
    '$' ∈ ['a', '$', 'b'] ∧
      (∀ c ∈ ['a', '$', 'b'], c = '$' ∨ (ALPHABET c = true ∧ c ≠ ' ')) ∧
      (sort_string ['a', '$', 'b']).head? = some '$' :=
  ⟨by decide, by decide,
    (C2_sentinel_order ['a', '$', 'b'] (by decide) (by decide)).1⟩

/-- C3: the claim says inversion must fail whenever the sentinel `s` does
not occur in `B`, but at `B = "a$"`, `s = 'x'` the code returns the
decoded string `"a"`: `invert_bwt_via_map` never uses its `end_char`
argument (the call to `text_using_map` does not forward it), so the walk
starts from the `'$'` that happens to be present. -/
theorem C3_sentinel_absent_failing_eval :
    ('x' ∉ ['a', '$']) ∧ invert_bwt_via_map ['a', '$'] 'x' = some ['a'] := by
  decide

/-- C4: for every string `B` of length `n`, `build_map B` has length `n`
and is a bijection on `[0, n)`: it is a permutation of `range n`, and
every index below `n` appears exactly once. -/
theorem C4_build_map_bijection (B : List Char) :
    (build_map B).length = B.length ∧
      List.Perm (build_map B) (List.range B.length) ∧
      ∀ x, x < B.length → (build_map B).count x = 1 :=
  ⟨build_map_length B, build_map_perm_range B, fun _ hx => build_map_count B hx⟩

theorem C4_witness :
    (build_map ['a', 'n', 'n', 'b', '$', 'a', 'a']).length = 7 ∧
      (build_map ['a', 'n', 'n', 'b', '$', 'a', 'a']).count 4 = 1 :=
  ⟨(C4_build_map_bijection ['a', 'n', 'n', 'b', '$', 'a', 'a']).1,
    (C4_build_map_bijection ['a', 'n', 'n', 'b', '$', 'a', 'a']).2.2 4 (by decide)⟩

/-- C5: the decode half of the length invariant fails for sentinels other
than `'$'`: at `B = "ax"`, `s = 'x'` the sentinel occurs exactly once, yet
`invert_bwt_via_map` raises a `ValueError` (modelled as `none`) instead of
returning a string of length 1, because the walk looks for the unused
default `'$'`.  (The encode half `len(bw_transform(T, s)) = len(T) + 1`
does hold for all `T` and `s`; see `bw_transform_length`.) -/
theorem C5_length_failing_eval :
    List.count 'x' ['a', 'x'] = 1 ∧
      (bw_transform ['a'] 'x').length = 1 + 1 ∧
      invert_bwt_via_map ['a', 'x'] 'x' = none := by
  decide

/-- C6: `make_rotations t` is an ordered tuple of exactly `n = len t`
strings whose `i`-th element is `t[i:] + t[:i]`; element 0 is `t`
itself. -/
theorem C6_make_rotations (t : List Char) :
    (make_rotations t).length = t.length ∧
      (∀ i, i < t.length → (make_rotations t).getD i [] = t.drop i ++ t.take i) ∧
      (0 < t.length → (make_rotations t).getD 0 [] = t) := by
  refine ⟨make_rotations_length t, fun i hi => ?_, fun h0 => ?_⟩
  · have h := make_rotations_getD t hi
    rwa [rotl] at h
  · have h := make_rotations_getD t h0
    rwa [rotl_zero] at h

theorem C6_witness :
    (make_rotations ['a', 'b']).length = 2 ∧
      (make_rotations ['a', 'b']).getD 1 [] = ['b', 'a'] ∧
      (make_rotations ['a', 'b']).getD 0 [] = ['a', 'b'] :=
  ⟨(C6_make_rotations ['a', 'b']).1,
    (C6_make_rotations ['a', 'b']).2.1 1 (by decide),
    (C6_make_rotations ['a', 'b']).2.2 (by decide)⟩

/-- C7 counterexample: a decode input with zero occurrences of the
sentinel `'$'` that `validate_bwt` does not reject: the lone non-alphabet
character `'#'` is silently replaced by the sentinel and a BWT string is
returned. -/
theorem C7_counterexample :
    List.count '$' ['a', 'b', '#'] = 0 ∧
      validate_bwt ['a', 'b', '#'] = Except.ok ['a', 'b', '$'] :=
  ⟨by decide, by rfl⟩

/-- C7 (amended): for every decode input whose characters outside the
permitted alphabet are all the sentinel `'$'`, if the sentinel occurs zero
times or more than once then `validate_bwt` returns an error message
rather than a BWT string. -/
theorem C7_validate_rejects (s : List Char)
    (halph : ∀ c ∈ s, ALPHABET c = true ∨ c = '$')
    (hcnt : s.count '$' = 0 ∨ 1 < s.count '$') :
    ∃ msg, validate_bwt s = Except.error msg :=
  validate_bwt_rejects s halph hcnt

theorem C7_witness :
    (∀ c ∈ ['a', 'b'], ALPHABET c = true ∨ c = '$') ∧
      (List.count '$' ['a', 'b'] = 0 ∨ 1 < List.count '$' ['a', 'b']) ∧
      ∃ msg, validate_bwt ['a', 'b'] = Except.error msg :=
  ⟨by decide, by decide, C7_validate_rejects ['a', 'b'] (by decide) (by decide)⟩

/-- C8: the `mississippi` scenario: the transform of `"mississippi"` with
sentinel `'$'` is `"ipssm$pissii"`, and inverting it recovers
`"mississippi"`. -/
theorem C8_mississippi :
    bw_transform "mississippi".toList '$' = "ipssm$pissii".toList ∧
      invert_bwt_via_map "ipssm$pissii".toList '$' = some "mississippi".toList := by
  decide

/-- C9: boundary cases of the forward transform: the empty text transforms
to the sentinel alone (for every sentinel), and `"a"` with sentinel `'$'`
transforms to `"a$"`. -/
theorem C9_boundary :
    (∀ s : Char, bw_transform [] s = [s]) ∧ bw_transform ['a'] '$' = ['a', '$'] :=
  ⟨fun _ => rfl, by decide⟩

/-- C10: for every text over the permitted alphabet (space, digits, ASCII
letters — all of which exclude `'$'`), the round trip with the default
sentinel holds, including texts containing spaces, for which the sentinel
is not the smallest character in the code-point order used by the
sorts. -/
theorem C10_round_trip (T : List Char) (halph : ∀ c ∈ T, ALPHABET c = true) :
    invert_bwt_via_map (bw_transform T '$') '$' = some T := by
  apply round_trip
  intro hmem
  exact absurd (halph '$' hmem) (by decide)

theorem C10_witness :
    (∀ c ∈ "3 aardvarks".toList, ALPHABET c = true) ∧
      invert_bwt_via_map (bw_transform "3 aardvarks".toList '$') '$'
        = some "3 aardvarks".toList :=
  ⟨by decide, C10_round_trip "3 aardvarks".toList (by decide)⟩
